import Mathlib

/-!
Verification development for the `Genealogical` pedigree-DAG engine
(`genealogy_aligner/Genealogical.py`).

The graph store is a networkx `DiGraph`: a node list (insertion order), an
edge list (insertion order, no parallel edges), and a per-node attribute
mapping (we keep only the key list, which is all the `attributes` accessor
reads).  Node identifiers are Python ints, modelled as `Nat`.  Python
truthiness of a node id (`any(...)` over an iterator of ids) is `id ≠ 0`.
-/

/-- Python truthiness of an integer node id: `0` is falsy. -/
def truthy (n : Nat) : Bool := n != 0

/-- The state owned by a `Genealogical` object: a `networkx.DiGraph`.
`nodes` and `edges` are kept in insertion order; `attrs n` is the ordered
key list of node `n`'s attribute dict. -/
structure PGraph where
  nodes : List Nat
  edges : List (Nat × Nat)
  attrs : Nat → List String

/-- Basic well-formedness of a `DiGraph`: edge endpoints are nodes, and the
node/edge containers are duplicate-free (networkx stores them as dicts). -/
def PGraph.Wf (g : PGraph) : Prop :=
  (∀ e ∈ g.edges, e.1 ∈ g.nodes ∧ e.2 ∈ g.nodes) ∧ g.nodes.Nodup ∧ g.edges.Nodup

instance (g : PGraph) : Decidable g.Wf := by
  unfold PGraph.Wf; infer_instance

/-- Iteration-direction neighbors: `outN g true n` is `graph.successors(n)`
(children, adjacency insertion order) and `outN g false n` is
`graph.predecessors(n)` (parents). -/
def outN (g : PGraph) (fwd : Bool) (n : Nat) : List Nat :=
  if fwd then (g.edges.filter (fun e => e.1 == n)).map Prod.snd
  else (g.edges.filter (fun e => e.2 == n)).map Prod.fst

/-- Neighbors against the iteration direction (parents when iterating
forward, children when iterating backward). -/
def inN (g : PGraph) (fwd : Bool) (n : Nat) : List Nat := outN g (!fwd) n

theorem mem_outN {g : PGraph} {fwd : Bool} {p c : Nat} :
    c ∈ outN g fwd p ↔ (if fwd then (p, c) else (c, p)) ∈ g.edges := by
  cases fwd with
  | true =>
    simp only [outN, if_true, List.mem_map, List.mem_filter]
    constructor
    · rintro ⟨⟨a, b⟩, ⟨he, hp⟩, hc⟩
      simp only [beq_iff_eq] at hp
      simp only [] at hc
      subst hp hc
      simpa using he
    · intro h
      exact ⟨(p, c), ⟨h, by simp⟩, rfl⟩
  | false =>
    simp only [outN, if_false, Bool.false_eq_true, List.mem_map, List.mem_filter]
    constructor
    · rintro ⟨⟨a, b⟩, ⟨he, hp⟩, hc⟩
      simp only [beq_iff_eq] at hp
      simp only [] at hc
      subst hp hc
      simpa using he
    · intro h
      exact ⟨(c, p), ⟨h, by simp⟩, rfl⟩

theorem mem_outN_iff_mem_inN {g : PGraph} {fwd : Bool} {p c : Nat} :
    c ∈ outN g fwd p ↔ p ∈ inN g fwd c := by
  cases fwd <;> simp [inN, mem_outN]

theorem outN_subset_nodes {g : PGraph} (hwf : g.Wf) {fwd : Bool} {p c : Nat}
    (hc : c ∈ outN g fwd p) : c ∈ g.nodes := by
  have h := mem_outN.1 hc
  cases fwd with
  | true => exact (hwf.1 _ (by simpa using h)).2
  | false => exact (hwf.1 _ (by simpa using h)).1

/-- One directed step: `(a, b)` is an edge of the graph. -/
def EdgeStep (g : PGraph) (a b : Nat) : Prop := (a, b) ∈ g.edges

/-- The pedigree invariant assumed by every algorithm in the class:
no directed cycle. -/
def Acyclic (g : PGraph) : Prop := ∀ n, ¬ Relation.TransGen (EdgeStep g) n n

/-- A graph admitting a rank function that strictly increases along edges is
acyclic (used to discharge `Acyclic` on concrete graphs). -/
theorem acyclic_of_rank (g : PGraph) (r : Nat → Nat)
    (h : ∀ e ∈ g.edges, r e.1 < r e.2) : Acyclic g := by
  intro n hn
  have key : ∀ a b, Relation.TransGen (EdgeStep g) a b → r a < r b := by
    intro a b hab
    induction hab with
    | single hs => exact h _ hs
    | tail _ hs ih => exact lt_trans ih (h _ hs)
  exact lt_irrefl _ (key n n hn)

/-- `walkB g fwd k a b` decides whether there is a directed walk of length
`k` from `a` to `b` following the `fwd` direction's neighbors. -/
def walkB (g : PGraph) (fwd : Bool) : Nat → Nat → Nat → Bool
  | 0, a, b => a == b
  | k + 1, a, b => (outN g fwd a).any (fun c => walkB g fwd k c b)

/-- There is a walk of length `k` from `a` to `b` in direction `fwd`. -/
def WalkF (g : PGraph) (fwd : Bool) (a b k : Nat) : Prop :=
  walkB g fwd k a b = true

instance (g : PGraph) (fwd : Bool) (a b k : Nat) : Decidable (WalkF g fwd a b k) := by
  unfold WalkF; infer_instance

theorem walkF_zero {g : PGraph} {fwd : Bool} {a b : Nat} :
    WalkF g fwd a b 0 ↔ a = b := by
  simp [WalkF, walkB]

theorem walkF_refl (g : PGraph) (fwd : Bool) (a : Nat) : WalkF g fwd a a 0 := by
  simp [WalkF, walkB]

theorem walkF_succ {g : PGraph} {fwd : Bool} {a b k : Nat} :
    WalkF g fwd a b (k + 1) ↔ ∃ c ∈ outN g fwd a, WalkF g fwd c b k := by
  simp [WalkF, walkB, List.any_eq_true]

theorem walkF_cons {g : PGraph} {fwd : Bool} {a c b k : Nat}
    (hc : c ∈ outN g fwd a) (hw : WalkF g fwd c b k) : WalkF g fwd a b (k + 1) :=
  walkF_succ.2 ⟨c, hc, hw⟩

/-- Extract a walk as a step function `w : Nat → Nat`. -/
theorem walkF_exists_fun {g : PGraph} {fwd : Bool} {a b k : Nat}
    (h : WalkF g fwd a b k) :
    ∃ w : Nat → Nat, w 0 = a ∧ w k = b ∧
      ∀ i, i < k → w (i + 1) ∈ outN g fwd (w i) := by
  induction k generalizing a with
  | zero =>
    rcases walkF_zero.1 h with rfl
    exact ⟨fun _ => a, rfl, rfl, fun i hi => absurd hi (Nat.not_lt_zero i)⟩
  | succ k ih =>
    rcases walkF_succ.1 h with ⟨c, hc, hw⟩
    rcases ih hw with ⟨w, hw0, hwk, hstep⟩
    refine ⟨fun i => if i = 0 then a else w (i - 1), by simp, by simp [hwk], ?_⟩
    intro i hi
    cases i with
    | zero => simpa [hw0] using hc
    | succ j =>
      have hj : j < k := by omega
      simpa using hstep j hj

/-- Rebuild a walk from a step function. -/
theorem walkF_of_fun {g : PGraph} {fwd : Bool} (w : Nat → Nat) :
    ∀ k, (∀ i, i < k → w (i + 1) ∈ outN g fwd (w i)) → WalkF g fwd (w 0) (w k) k := by
  intro k
  induction k generalizing w with
  | zero => intro _; exact walkF_refl g fwd (w 0)
  | succ k ih =>
    intro hstep
    have h1 : w 1 ∈ outN g fwd (w 0) := hstep 0 (Nat.succ_pos k)
    have := ih (fun i => w (i + 1)) (fun i hi => hstep (i + 1) (by omega))
    exact walkF_cons h1 this

/-- Split off the last step of a positive-length walk. -/
theorem walkF_snoc_split {g : PGraph} {fwd : Bool} {a c k : Nat}
    (h : WalkF g fwd a c (k + 1)) :
    ∃ p, WalkF g fwd a p k ∧ c ∈ outN g fwd p := by
  rcases walkF_exists_fun h with ⟨w, hw0, hwk, hstep⟩
  refine ⟨w k, ?_, ?_⟩
  · have := walkF_of_fun w k (fun i hi => hstep i (by omega))
    rwa [hw0] at this
  · have := hstep k (by omega)
    rwa [hwk] at this

/-- Append one step to the end of a walk. -/
theorem walkF_snoc {g : PGraph} {fwd : Bool} {a p c k : Nat}
    (h : WalkF g fwd a p k) (hc : c ∈ outN g fwd p) : WalkF g fwd a c (k + 1) := by
  rcases walkF_exists_fun h with ⟨w, hw0, hwk, hstep⟩
  have hstep' : ∀ i, i < k + 1 →
      (fun i => if i ≤ k then w i else c) (i + 1) ∈
        outN g fwd ((fun i => if i ≤ k then w i else c) i) := by
    intro i hi
    by_cases hik : i + 1 ≤ k
    · simpa [hik, Nat.le_of_succ_le hik] using hstep i (by omega)
    · have : i = k := by omega
      subst this
      simpa [hwk, Nat.le_refl] using hc
  have := @walkF_of_fun g fwd (fun i => if i ≤ k then w i else c) (k + 1) hstep'
  simpa [hw0, Nat.not_le.2 (Nat.lt_succ_self k)] using this

/-- All vertices of a walk starting in the node set stay in the node set. -/
theorem walkF_fun_mem {g : PGraph} (hwf : g.Wf) {fwd : Bool} (w : Nat → Nat) (k : Nat)
    (hstep : ∀ i, i < k → w (i + 1) ∈ outN g fwd (w i)) (h0 : w 0 ∈ g.nodes) :
    ∀ i, i ≤ k → w i ∈ g.nodes := by
  intro i hi
  induction i with
  | zero => exact h0
  | succ j ih =>
    have hj : j < k := by omega
    exact outN_subset_nodes hwf (hstep j hj)

theorem walkF_end_mem {g : PGraph} (hwf : g.Wf) {fwd : Bool} {a b k : Nat}
    (h : WalkF g fwd a b k) (ha : a ∈ g.nodes) : b ∈ g.nodes := by
  rcases walkF_exists_fun h with ⟨w, hw0, hwk, hstep⟩
  have := walkF_fun_mem hwf w k hstep (by rwa [hw0]) k (le_refl k)
  rwa [hwk] at this

/-- A positive-length walk yields a transitive edge chain (in the underlying
parent-to-child edge relation, whatever the iteration direction). -/
theorem walkF_transGen_true {g : PGraph} {a b k : Nat}
    (h : WalkF g true a b (k + 1)) : Relation.TransGen (EdgeStep g) a b := by
  induction k generalizing a with
  | zero =>
    rcases walkF_succ.1 h with ⟨c, hc, hw⟩
    rcases walkF_zero.1 hw with rfl
    exact Relation.TransGen.single (by simpa using mem_outN.1 hc)
  | succ k ih =>
    rcases walkF_succ.1 h with ⟨c, hc, hw⟩
    exact Relation.TransGen.head (by simpa using mem_outN.1 hc) (ih hw)

theorem walkF_transGen_false {g : PGraph} {a b k : Nat}
    (h : WalkF g false a b (k + 1)) : Relation.TransGen (EdgeStep g) b a := by
  induction k generalizing a with
  | zero =>
    rcases walkF_succ.1 h with ⟨c, hc, hw⟩
    rcases walkF_zero.1 hw with rfl
    exact Relation.TransGen.single (by simpa using mem_outN.1 hc)
  | succ k ih =>
    rcases walkF_succ.1 h with ⟨c, hc, hw⟩
    exact Relation.TransGen.tail (ih hw) (by simpa using mem_outN.1 hc)

/-- In an acyclic graph there is no positive-length closed walk. -/
theorem acyclic_no_closed_walk {g : PGraph} (hac : Acyclic g) {fwd : Bool} {v k : Nat}
    (h : WalkF g fwd v v (k + 1)) : False := by
  cases fwd with
  | true => exact hac v (walkF_transGen_true h)
  | false => exact hac v (walkF_transGen_false h)

/-- Pigeonhole: a walk at least as long as the node count revisits some
vertex, yielding a vertex that is reachable from the walk's start AND
carries a positive-length closed walk. -/
theorem walk_long_has_cycle {g : PGraph} (hwf : g.Wf) {fwd : Bool} {a b k : Nat}
    (h : WalkF g fwd a b k) (ha : a ∈ g.nodes) (hk : g.nodes.length ≤ k) :
    ∃ v i L, WalkF g fwd a v i ∧ WalkF g fwd v v (L + 1) := by
  rcases walkF_exists_fun h with ⟨w, hw0, hwk, hstep⟩
  have hmem : ∀ i ∈ Finset.range (k + 1), w i ∈ g.nodes.toFinset := by
    intro i hi
    simp only [Finset.mem_range] at hi
    simpa [List.mem_toFinset] using
      walkF_fun_mem hwf w k hstep (by rwa [hw0]) i (by omega)
  have hcard : g.nodes.toFinset.card < (Finset.range (k + 1)).card := by
    have h1 : g.nodes.toFinset.card ≤ g.nodes.length := g.nodes.toFinset_card_le
    simpa using lt_of_le_of_lt h1 (by omega : g.nodes.length < k + 1)
  rcases Finset.exists_ne_map_eq_of_card_lt_of_maps_to hcard hmem with
    ⟨i, hi, j, hj, hij, heq⟩
  simp only [Finset.mem_range] at hi hj
  -- sub-walk between any two ordered positions
  have segment : ∀ i j : Nat, i < j → j ≤ k → WalkF g fwd (w i) (w j) (j - i) := by
    intro i j hlt hjk
    have hstep' : ∀ m, m < j - i →
        (fun m => w (i + m)) (m + 1) ∈ outN g fwd ((fun m => w (i + m)) m) := by
      intro m hm
      have hik : i + m < k := by omega
      show w (i + (m + 1)) ∈ outN g fwd (w (i + m))
      have hadd : i + (m + 1) = (i + m) + 1 := by omega
      rw [hadd]
      exact hstep (i + m) hik
    have hres := @walkF_of_fun g fwd (fun m => w (i + m)) (j - i) hstep'
    have h1 : i + 0 = i := by omega
    have h2 : i + (j - i) = j := by omega
    simp only [h1, h2] at hres
    exact hres
  -- prefix walk from the start to any position
  have prefixWalk : ∀ i : Nat, i ≤ k → WalkF g fwd a (w i) i := by
    intro i hik
    have := walkF_of_fun w i (fun m hm => hstep m (by omega))
    rwa [hw0] at this
  rcases Nat.lt_or_ge i j with hlt | hge
  · have hcyc := segment i j hlt (by omega)
    obtain ⟨d, hd⟩ : ∃ d, j - i = d + 1 := ⟨j - i - 1, by omega⟩
    rw [hd, ← heq] at hcyc
    exact ⟨w i, i, d, prefixWalk i (by omega), hcyc⟩
  · have hlt : j < i := by omega
    have hcyc := segment j i hlt (by omega)
    obtain ⟨d, hd⟩ : ∃ d, i - j = d + 1 := ⟨i - j - 1, by omega⟩
    rw [hd, heq] at hcyc
    exact ⟨w j, j, d, prefixWalk j (by omega), hcyc⟩

/-- Pigeonhole bound: in a well-formed acyclic graph a walk starting at a
node has length below the number of nodes. -/
theorem walk_length_bound {g : PGraph} (hwf : g.Wf) (hac : Acyclic g)
    {fwd : Bool} {a b k : Nat} (h : WalkF g fwd a b k) (ha : a ∈ g.nodes) :
    k + 1 ≤ g.nodes.length := by
  by_contra hk
  push_neg at hk
  rcases walk_long_has_cycle hwf h ha (by omega) with ⟨v, i, L, _, hcyc⟩
  exact acyclic_no_closed_walk hac hcyc

/-!
## Traversal engine: `trace_edges`

`trace_edges(forward, source)` keeps a `curr_gen` set, yields every
`(node, neighbor)` pair of the current generation and accumulates the
neighbors as the next generation, looping while `curr_gen` is nonempty.
`traceGens g fwd src t` is the `curr_gen` set before iteration `t` of the
while-loop; iteration `t` yields exactly the pairs `(p, c)` with
`p ∈ traceGens t` and `c` a direction-`fwd` neighbor of `p`.
-/

def traceGens (g : PGraph) (fwd : Bool) (src : Finset Nat) : Nat → Finset Nat
  | 0 => src
  | t + 1 => (traceGens g fwd src t).biUnion (fun p => (outN g fwd p).toFinset)

/-- `founders_view()` / `probands_view()` as the code computes them:
`lambda n: not any(G.predecessors(n))` tests Python TRUTHINESS of the
neighbor ids, so a node whose recorded in-neighbors are all the id `0`
also passes the filter. -/
def pySources (g : PGraph) (fwd : Bool) : List Nat :=
  g.nodes.filter (fun n => !(inN g fwd n).any truthy)

/-- The default `source` argument of `trace_edges`: `set(founders_view().nodes)`
forward, `set(probands_view().nodes)` backward. -/
def defaultSrc (g : PGraph) (fwd : Bool) : Finset Nat := (pySources g fwd).toFinset

theorem pySources_subset_nodes {g : PGraph} {fwd : Bool} :
    ∀ n ∈ pySources g fwd, n ∈ g.nodes := by
  intro n hn
  exact (List.mem_filter.1 hn).1

/-- A node with NO recorded in-neighbors (a spec-level founder/proband). -/
def TrueSource (g : PGraph) (fwd : Bool) (f : Nat) : Prop :=
  f ∈ g.nodes ∧ inN g fwd f = []

instance (g : PGraph) (fwd : Bool) (f : Nat) : Decidable (TrueSource g fwd f) := by
  unfold TrueSource; infer_instance

theorem trueSource_mem_defaultSrc {g : PGraph} {fwd : Bool} {f : Nat}
    (h : TrueSource g fwd f) : f ∈ defaultSrc g fwd := by
  rcases h with ⟨hmem, hin⟩
  simp [defaultSrc, pySources, List.mem_filter, hmem, hin]

theorem mem_traceGens_succ {g : PGraph} {fwd : Bool} {src : Finset Nat} {t : Nat}
    {c : Nat} :
    c ∈ traceGens g fwd src (t + 1) ↔
      ∃ p ∈ traceGens g fwd src t, c ∈ outN g fwd p := by
  simp [traceGens, Finset.mem_biUnion, List.mem_toFinset]

/-- Walks starting in the source set land in the corresponding generation. -/
theorem walk_mem_traceGens {g : PGraph} {fwd : Bool} {src : Finset Nat}
    {s n t0 t : Nat} (hs : s ∈ traceGens g fwd src t0) (hw : WalkF g fwd s n t) :
    n ∈ traceGens g fwd src (t0 + t) := by
  induction t generalizing s t0 with
  | zero =>
    rcases walkF_zero.1 hw with rfl
    simpa using hs
  | succ t ih =>
    rcases walkF_succ.1 hw with ⟨c, hc, hw'⟩
    have hc1 : c ∈ traceGens g fwd src (t0 + 1) :=
      mem_traceGens_succ.2 ⟨s, hs, hc⟩
    have := ih hc1 hw'
    have harith : t0 + 1 + t = t0 + (t + 1) := by omega
    rwa [harith] at this

/-- Every generation member is reached by a walk of that exact length from
the source set. -/
theorem traceGens_walk {g : PGraph} {fwd : Bool} {src : Finset Nat} {t n : Nat}
    (h : n ∈ traceGens g fwd src t) : ∃ s ∈ src, WalkF g fwd s n t := by
  induction t generalizing n with
  | zero => exact ⟨n, by simpa [traceGens] using h, walkF_refl g fwd n⟩
  | succ t ih =>
    rcases mem_traceGens_succ.1 h with ⟨p, hp, hc⟩
    rcases ih hp with ⟨s, hs, hw⟩
    exact ⟨s, hs, walkF_snoc hw hc⟩

/-- Once a generation is empty every later generation is empty: the
while-loop of `trace_edges` has terminated. -/
theorem traceGens_empty_mono {g : PGraph} {fwd : Bool} {src : Finset Nat} {t : Nat}
    (h : traceGens g fwd src t = ∅) : ∀ u, t ≤ u → traceGens g fwd src u = ∅ := by
  intro u hu
  induction u with
  | zero =>
    have : t = 0 := by omega
    subst this; exact h
  | succ u ih =>
    rcases Nat.lt_or_ge t (u + 1) with hlt | hge
    · have hu' : traceGens g fwd src u = ∅ := ih (by omega)
      simp [traceGens, hu']
    · have : t = u + 1 := by omega
      subst this; exact h

/-- On a finite well-formed acyclic graph the layered traversal dies out by
generation `|nodes|`. -/
theorem traceGens_terminates {g : PGraph} (hwf : g.Wf) (hac : Acyclic g)
    {fwd : Bool} {src : Finset Nat} (hsrc : ∀ s ∈ src, s ∈ g.nodes) :
    ∀ t, g.nodes.length ≤ t → traceGens g fwd src t = ∅ := by
  intro t ht
  by_contra hne
  rcases Finset.nonempty_iff_ne_empty.2 hne with ⟨n, hn⟩
  rcases traceGens_walk hn with ⟨s, hs, hw⟩
  have := walk_length_bound hwf hac hw (hsrc s hs)
  omega

/-- If a node carrying a positive-length closed walk is reachable in the
traversal, no generation is ever empty: the while-loop never terminates. -/
theorem traceGens_nonempty_of_reachable_cycle {g : PGraph} {fwd : Bool}
    {src : Finset Nat} {c t0 L : Nat} (hc : c ∈ traceGens g fwd src t0)
    (hcyc : WalkF g fwd c c (L + 1)) :
    ∀ t, traceGens g fwd src t ≠ ∅ := by
  intro t
  rcases walkF_exists_fun hcyc with ⟨w, hw0, hwL, hstep⟩
  -- some vertex of the closed walk inhabits every later generation
  have key : ∀ k, ∃ i ≤ L, w i ∈ traceGens g fwd src (t0 + k) := by
    intro k
    induction k with
    | zero => exact ⟨0, Nat.zero_le L, by simpa [hw0] using hc⟩
    | succ k ih =>
      rcases ih with ⟨i, hiL, hi⟩
      rcases Nat.lt_or_ge i L with hlt | hge
      · refine ⟨i + 1, by omega, ?_⟩
        have := hstep i (by omega)
        exact mem_traceGens_succ.2 ⟨w i, hi, this⟩
      · have hiL' : i = L := by omega
        rw [hiL'] at hi
        refine ⟨0, Nat.zero_le L, ?_⟩
        have hstepL := hstep L (by omega)
        have hmem : w (L + 1) ∈ traceGens g fwd src (t0 + k + 1) :=
          mem_traceGens_succ.2 ⟨w L, hi, hstepL⟩
        rw [hwL, ← hw0] at hmem
        exact hmem
  intro hemp
  rcases Nat.le_total t t0 with hle | hle
  · have := traceGens_empty_mono hemp t0 hle
    rw [this] at hc
    cases hc
  · rcases key (t - t0) with ⟨i, _, hi⟩
    have harith : t0 + (t - t0) = t := by omega
    rw [harith, hemp] at hi
    cases hi

/-- Conversely: when NO node reachable in the traversal carries a
positive-length closed walk (in particular when a cyclic graph's cycles
sit outside the reachable region), the traversal still dies out by
generation `|nodes|` — global acyclicity is not needed. -/
theorem traceGens_no_cycle_terminates {g : PGraph} (hwf : g.Wf) {fwd : Bool}
    {src : Finset Nat} (hsrc : ∀ s ∈ src, s ∈ g.nodes)
    (hnc : ¬ ∃ c t0 L, c ∈ traceGens g fwd src t0 ∧ WalkF g fwd c c (L + 1)) :
    ∀ t, g.nodes.length ≤ t → traceGens g fwd src t = ∅ := by
  intro t ht
  by_contra hne
  rcases Finset.nonempty_iff_ne_empty.2 hne with ⟨n, hn⟩
  rcases traceGens_walk hn with ⟨s, hs, hw⟩
  rcases walk_long_has_cycle hwf hw (hsrc s hs) ht with ⟨v, i, L, hpre, hcyc⟩
  have hs0 : s ∈ traceGens g fwd src 0 := by simpa [traceGens] using hs
  have hv := walk_mem_traceGens hs0 hpre
  exact hnc ⟨v, 0 + i, L, hv, hcyc⟩

/-!
## Depth inference: `infer_depth`

`infer_depth` consumes `trace_edges(forward)` pair by pair and relaxes
`if depth[child] <= depth[node]: depth[child] = depth[node] + 1` on a
`defaultdict(int)` (modelled as a total function with default `0`).
The iteration order of the Python SET `curr_gen` is arbitrary, so the
per-layer node order is abstracted as an oracle
`ord : Finset Nat → List Nat` that enumerates each set; all theorems hold
for every enumeration oracle.  Within one node the children are visited in
adjacency order, and `depth[node]` is re-read for every yielded pair.
-/

/-- One yielded pair `(p, c)`: the body of the `infer_depth` loop. -/
def relaxEdge (p c : Nat) (dep : Nat → Nat) : Nat → Nat :=
  if dep c ≤ dep p then Function.update dep c (dep p + 1) else dep

/-- Processing node `p` of the current generation: `trace_edges` yields
`(p, c)` for each neighbor `c` of `p` in adjacency order. -/
def relaxNode (g : PGraph) (fwd : Bool) (p : Nat) (dep : Nat → Nat) : Nat → Nat :=
  (outN g fwd p).foldl (fun d c => relaxEdge p c d) dep

/-- Processing one whole generation, in the enumeration order `l`. -/
def relaxLayer (g : PGraph) (fwd : Bool) (l : List Nat) (dep : Nat → Nat) :
    Nat → Nat :=
  l.foldl (fun d p => relaxNode g fwd p d) dep

/-- The depth table after `t` iterations of the `trace_edges` while-loop. -/
def depthAfter (g : PGraph) (fwd : Bool) (ord : Finset Nat → List Nat) :
    Nat → (Nat → Nat)
  | 0 => fun _ => 0
  | t + 1 =>
    relaxLayer g fwd (ord (traceGens g fwd (defaultSrc g fwd) t))
      (depthAfter g fwd ord t)

/-- `infer_depth(forward)`.  On an acyclic graph the traversal is silent
from generation `|nodes|` on, so running `|nodes|` iterations reproduces
the full while-loop. -/
def infer_depth (g : PGraph) (fwd : Bool) (ord : Finset Nat → List Nat) :
    Nat → Nat :=
  depthAfter g fwd ord g.nodes.length

theorem relaxEdge_mono {p c : Nat} {dep : Nat → Nat} :
    ∀ x, dep x ≤ relaxEdge p c dep x := by
  intro x
  unfold relaxEdge
  split
  · rcases eq_or_ne x c with rfl | hx
    · simp only [Function.update_same]; omega
    · simp [Function.update_noteq hx]
  · exact le_refl _

theorem relaxNode_mono {g : PGraph} {fwd : Bool} {p : Nat} {dep : Nat → Nat} :
    ∀ x, dep x ≤ relaxNode g fwd p dep x := by
  unfold relaxNode
  generalize outN g fwd p = l
  induction l generalizing dep with
  | nil => intro x; exact le_refl _
  | cons c cs ih =>
    intro x
    exact le_trans (relaxEdge_mono x) (ih x)

theorem relaxLayer_mono {g : PGraph} {fwd : Bool} {l : List Nat} {dep : Nat → Nat} :
    ∀ x, dep x ≤ relaxLayer g fwd l dep x := by
  unfold relaxLayer
  induction l generalizing dep with
  | nil => intro x; exact le_refl _
  | cons p ps ih =>
    intro x
    exact le_trans (relaxNode_mono x) (ih x)

theorem depthAfter_mono {g : PGraph} {fwd : Bool} {ord : Finset Nat → List Nat}
    {t u : Nat} (h : t ≤ u) : ∀ x, depthAfter g fwd ord t x ≤ depthAfter g fwd ord u x := by
  induction u with
  | zero =>
    have : t = 0 := by omega
    subst this; intro x; exact le_refl _
  | succ u ih =>
    intro x
    rcases Nat.lt_or_ge t (u + 1) with hlt | hge
    · exact le_trans (ih (by omega) x) (relaxLayer_mono x)
    · have : t = u + 1 := by omega
      subst this; exact le_refl _

theorem foldl_relaxEdge_mono (p : Nat) (l : List Nat) :
    ∀ (dep : Nat → Nat) (x : Nat),
      dep x ≤ (l.foldl (fun d c' => relaxEdge p c' d) dep) x := by
  induction l with
  | nil => intro dep x; exact le_refl _
  | cons c' cs ih =>
    intro dep x
    simp only [List.foldl_cons]
    exact le_trans (relaxEdge_mono x) (ih _ x)

theorem foldl_relaxEdge_lower (p c : Nat) (l : List Nat) (hc : c ∈ l) :
    ∀ dep : Nat → Nat, dep p + 1 ≤ (l.foldl (fun d c' => relaxEdge p c' d) dep) c := by
  induction l with
  | nil => cases hc
  | cons c' cs ih =>
    intro dep
    simp only [List.foldl_cons]
    rcases List.mem_cons.1 hc with rfl | hmem
    · -- the pair (p, c) is yielded now; afterwards entries only increase
      have hstep : dep p + 1 ≤ relaxEdge p c dep c := by
        unfold relaxEdge
        split
        · simp
        · omega
      exact le_trans hstep (foldl_relaxEdge_mono p cs _ c)
    · have h1 := ih hmem (relaxEdge p c' dep)
      have h2 : dep p ≤ relaxEdge p c' dep p := relaxEdge_mono p
      omega

/-- After node `p` of the layer is processed, each of its neighbors holds at
least `dep p + 1` (where `dep` is the table at the start of the layer). -/
theorem relaxNode_lower {g : PGraph} {fwd : Bool} {p c : Nat} {dep : Nat → Nat}
    (hc : c ∈ outN g fwd p) : dep p + 1 ≤ relaxNode g fwd p dep c :=
  foldl_relaxEdge_lower p c (outN g fwd p) hc dep

/-- If `p` belongs to the processed layer and `c` is one of its neighbors,
the layer pass raises `c` to at least `dep p + 1`. -/
theorem relaxLayer_lower {g : PGraph} {fwd : Bool} {l : List Nat} {p c : Nat}
    {dep : Nat → Nat} (hp : p ∈ l) (hc : c ∈ outN g fwd p) :
    dep p + 1 ≤ relaxLayer g fwd l dep c := by
  induction l generalizing dep with
  | nil => cases hp
  | cons q qs ih =>
    simp only [relaxLayer, List.foldl_cons]
    rcases List.mem_cons.1 hp with rfl | hmem
    · have h1 : dep p + 1 ≤ relaxNode g fwd p dep c := relaxNode_lower hc
      have h2 := @relaxLayer_mono g fwd qs (relaxNode g fwd p dep) c
      simp only [relaxLayer] at h2
      omega
    · have h1 : (relaxNode g fwd q dep) p + 1 ≤
          relaxLayer g fwd qs (relaxNode g fwd q dep) c := ih hmem
      simp only [relaxLayer] at h1
      have h2 : dep p ≤ relaxNode g fwd q dep p := relaxNode_mono p
      omega

/-!
### Longest-path characterization of `infer_depth`
-/

/-- Is there a walk of length `d` from some node of the graph to `c`? -/
def hasWalkTo (g : PGraph) (fwd : Bool) (c d : Nat) : Bool :=
  g.nodes.any (fun a => walkB g fwd d a c)

/-- Length of the longest direction-`fwd` walk ending at `c` (starting
anywhere in the node set). -/
def maxWalkTo (g : PGraph) (fwd : Bool) (c : Nat) : Nat :=
  Nat.findGreatest (fun d => hasWalkTo g fwd c d = true) g.nodes.length

theorem hasWalkTo_iff {g : PGraph} {fwd : Bool} {c d : Nat} :
    hasWalkTo g fwd c d = true ↔ ∃ a ∈ g.nodes, WalkF g fwd a c d := by
  simp [hasWalkTo, List.any_eq_true, WalkF]

theorem hasWalkTo_zero {g : PGraph} {fwd : Bool} {c : Nat} (hc : c ∈ g.nodes) :
    hasWalkTo g fwd c 0 = true :=
  hasWalkTo_iff.2 ⟨c, hc, walkF_refl g fwd c⟩

theorem maxWalkTo_spec {g : PGraph} (fwd : Bool) {c : Nat} (hc : c ∈ g.nodes) :
    ∃ a ∈ g.nodes, WalkF g fwd a c (maxWalkTo g fwd c) := by
  have key := @Nat.findGreatest_spec 0
      (fun d => hasWalkTo g fwd c d = true)
      (fun d => instDecidableEqBool (hasWalkTo g fwd c d) true)
      g.nodes.length (Nat.zero_le _) (hasWalkTo_zero hc)
  exact hasWalkTo_iff.1 key

theorem le_maxWalkTo {g : PGraph} {fwd : Bool} {a c d : Nat}
    (ha : a ∈ g.nodes) (hw : WalkF g fwd a c d) (hd : d ≤ g.nodes.length) :
    d ≤ maxWalkTo g fwd c :=
  Nat.le_findGreatest hd (hasWalkTo_iff.2 ⟨a, ha, hw⟩)

/-- Longest walks grow by at least one along each edge. -/
theorem maxWalkTo_succ {g : PGraph} (hwf : g.Wf) (hac : Acyclic g) {fwd : Bool}
    {p c : Nat} (hp : p ∈ g.nodes) (hc : c ∈ outN g fwd p) :
    maxWalkTo g fwd p + 1 ≤ maxWalkTo g fwd c := by
  rcases maxWalkTo_spec fwd hp with ⟨a, ha, hw⟩
  have hsnoc : WalkF g fwd a c (maxWalkTo g fwd p + 1) := walkF_snoc hw hc
  have hbound := walk_length_bound hwf hac hsnoc ha
  exact le_maxWalkTo ha hsnoc (by omega)

/-- Upper-bound invariant: every depth entry stays below the longest walk
ending there. -/
theorem relaxNode_upper {g : PGraph} (hwf : g.Wf) (hac : Acyclic g) {fwd : Bool}
    {p : Nat} (hp : p ∈ g.nodes) {dep : Nat → Nat}
    (hinv : ∀ x, dep x ≤ maxWalkTo g fwd x) :
    ∀ x, relaxNode g fwd p dep x ≤ maxWalkTo g fwd x := by
  unfold relaxNode
  have : ∀ (l : List Nat), (∀ c ∈ l, c ∈ outN g fwd p) →
      ∀ (dep : Nat → Nat), (∀ x, dep x ≤ maxWalkTo g fwd x) →
      ∀ x, (l.foldl (fun d c' => relaxEdge p c' d) dep) x ≤ maxWalkTo g fwd x := by
    intro l
    induction l with
    | nil => intro _ dep hinv x; exact hinv x
    | cons c cs ih =>
      intro hsub dep hinv x
      simp only [List.foldl_cons]
      refine ih (fun c' hc' => hsub c' (List.mem_cons_of_mem c hc')) _ ?_ x
      intro y
      unfold relaxEdge
      split
      · by_cases hy : y = c
        · subst hy
          simp only [Function.update_same]
          have h1 := maxWalkTo_succ hwf hac hp (hsub y (List.mem_cons_self y cs))
          have h2 := hinv p
          omega
        · simp only [Function.update_noteq hy]
          exact hinv y
      · exact hinv y
  exact this (outN g fwd p) (fun c hc => hc) dep hinv

theorem relaxLayer_upper {g : PGraph} (hwf : g.Wf) (hac : Acyclic g) {fwd : Bool}
    {l : List Nat} (hl : ∀ p ∈ l, p ∈ g.nodes) {dep : Nat → Nat}
    (hinv : ∀ x, dep x ≤ maxWalkTo g fwd x) :
    ∀ x, relaxLayer g fwd l dep x ≤ maxWalkTo g fwd x := by
  induction l generalizing dep with
  | nil => exact hinv
  | cons p ps ih =>
    simp only [relaxLayer, List.foldl_cons]
    have h1 := relaxNode_upper hwf hac (hl p (List.mem_cons_self p ps)) hinv
    have h2 := ih (fun q hq => hl q (List.mem_cons_of_mem p hq)) h1
    simpa [relaxLayer] using h2

theorem depthAfter_upper {g : PGraph} (hwf : g.Wf) (hac : Acyclic g) {fwd : Bool}
    {ord : Finset Nat → List Nat} (hord : ∀ s, (ord s).toFinset = s) :
    ∀ t x, depthAfter g fwd ord t x ≤ maxWalkTo g fwd x := by
  intro t
  induction t with
  | zero => intro x; simp [depthAfter]
  | succ t ih =>
    have hl : ∀ p ∈ ord (traceGens g fwd (defaultSrc g fwd) t), p ∈ g.nodes := by
      intro p hp
      have : p ∈ traceGens g fwd (defaultSrc g fwd) t := by
        rw [← hord (traceGens g fwd (defaultSrc g fwd) t)]
        simpa [List.mem_toFinset] using hp
      rcases traceGens_walk this with ⟨s, hs, hw⟩
      have hsn : s ∈ g.nodes := by
        have hsub := @pySources_subset_nodes g fwd
        simp only [defaultSrc, List.mem_toFinset] at hs
        exact hsub s hs
      exact walkF_end_mem hwf hw hsn
    exact relaxLayer_upper hwf hac hl ih

/-- Lower-bound induction: after `t` loop iterations every node reached by a
length-`d` walk (`d ≤ t`) from a true source has depth at least `d`. -/
theorem depthAfter_lower {g : PGraph} {fwd : Bool}
    {ord : Finset Nat → List Nat} (hord : ∀ s, (ord s).toFinset = s) :
    ∀ t c d f, TrueSource g fwd f → WalkF g fwd f c d → d ≤ t →
      d ≤ depthAfter g fwd ord t c := by
  intro t
  induction t with
  | zero => intro c d f _ _ hd; omega
  | succ t ih =>
    intro c d f hf hw hd
    rcases Nat.lt_or_ge d (t + 1) with hlt | hge
    · exact le_trans (ih c d f hf hw (by omega))
        (depthAfter_mono (by omega) c)
    · have hdt : d = t + 1 := by omega
      subst hdt
      rcases walkF_snoc_split hw with ⟨p, hwp, hc⟩
      have hpgen : p ∈ traceGens g fwd (defaultSrc g fwd) t := by
        have h0 : f ∈ traceGens g fwd (defaultSrc g fwd) 0 := by
          simpa [traceGens] using trueSource_mem_defaultSrc hf
        simpa using walk_mem_traceGens h0 hwp
      have hpl : p ∈ ord (traceGens g fwd (defaultSrc g fwd) t) := by
        rw [← List.mem_toFinset, hord]
        exact hpgen
      have hlow : depthAfter g fwd ord t p + 1 ≤
          relaxLayer g fwd (ord (traceGens g fwd (defaultSrc g fwd) t))
            (depthAfter g fwd ord t) c := relaxLayer_lower hpl hc
      have hp' : t ≤ depthAfter g fwd ord t p := ih p t f hf hwp (le_refl t)
      simp only [depthAfter]
      omega

/-- A true source is never the target of a relaxation, so keeps depth 0. -/
theorem depthAfter_trueSource {g : PGraph} {fwd : Bool}
    {ord : Finset Nat → List Nat} {f : Nat} (hf : inN g fwd f = []) :
    ∀ t, depthAfter g fwd ord t f = 0 := by
  have hnotout : ∀ p, f ∉ outN g fwd p := by
    intro p hmem
    have := mem_outN_iff_mem_inN.1 hmem
    rw [hf] at this
    cases this
  have hnode : ∀ p (dep : Nat → Nat), relaxNode g fwd p dep f = dep f := by
    intro p dep
    unfold relaxNode
    have : ∀ (l : List Nat), (∀ c ∈ l, c ∈ outN g fwd p) → ∀ (dep : Nat → Nat),
        (l.foldl (fun d c' => relaxEdge p c' d) dep) f = dep f := by
      intro l
      induction l with
      | nil => intro _ dep; rfl
      | cons c cs ih =>
        intro hsub dep
        simp only [List.foldl_cons]
        rw [ih (fun c' hc' => hsub c' (List.mem_cons_of_mem c hc')) _]
        have hcf : c ≠ f := by
          intro h
          exact hnotout p (h ▸ hsub c (List.mem_cons_self c cs))
        unfold relaxEdge
        split
        · exact Function.update_noteq (Ne.symm hcf) _ _
        · rfl
    exact this (outN g fwd p) (fun c hc => hc) dep
  have hlayer : ∀ (l : List Nat) (dep : Nat → Nat), relaxLayer g fwd l dep f = dep f := by
    intro l
    induction l with
    | nil => intro dep; rfl
    | cons p ps ih =>
      intro dep
      simp only [relaxLayer, List.foldl_cons]
      rw [show (ps.foldl (fun d p' => relaxNode g fwd p' d) (relaxNode g fwd p dep)) f
            = relaxLayer g fwd ps (relaxNode g fwd p dep) f from rfl]
      rw [ih (relaxNode g fwd p dep), hnode p dep]
  intro t
  induction t with
  | zero => rfl
  | succ t ih =>
    simp only [depthAfter]
    rw [hlayer _ _, ih]

/-- Every walk into `c` extends backward to one starting at a true source. -/
theorem walk_extends_to_source {g : PGraph} (hwf : g.Wf) (hac : Acyclic g)
    {fwd : Bool} :
    ∀ m a c d, a ∈ g.nodes → WalkF g fwd a c d → g.nodes.length ≤ d + m →
      ∃ f e, TrueSource g fwd f ∧ WalkF g fwd f c e ∧ d ≤ e := by
  intro m
  induction m with
  | zero =>
    intro a c d ha hw hm
    have := walk_length_bound hwf hac hw ha
    omega
  | succ m ih =>
    intro a c d ha hw hm
    cases hx : inN g fwd a with
    | nil => exact ⟨a, d, ⟨ha, hx⟩, hw, le_refl d⟩
    | cons q qs =>
      have hq : q ∈ inN g fwd a := by rw [hx]; exact List.mem_cons_self q qs
      have haq : a ∈ outN g fwd q := mem_outN_iff_mem_inN.2 hq
      have hqn : q ∈ g.nodes := by
        have h := mem_outN.1 haq
        cases fwd with
        | true => exact (hwf.1 _ (by simpa using h)).1
        | false => exact (hwf.1 _ (by simpa using h)).2
      have hw' : WalkF g fwd q c (d + 1) := walkF_cons haq hw
      rcases ih q c (d + 1) hqn hw' (by omega) with ⟨f, e, hf, hwe, hde⟩
      exact ⟨f, e, hf, hwe, by omega⟩

/-- `infer_depth` dominates the length of every true-source walk. -/
theorem infer_depth_ge {g : PGraph} (hwf : g.Wf) (hac : Acyclic g) {fwd : Bool}
    {ord : Finset Nat → List Nat} (hord : ∀ s, (ord s).toFinset = s)
    {f n d : Nat} (hf : TrueSource g fwd f) (hw : WalkF g fwd f n d) :
    d ≤ infer_depth g fwd ord n := by
  have hb := walk_length_bound hwf hac hw hf.1
  exact depthAfter_lower hord g.nodes.length n d f hf hw (by omega)

/-- `infer_depth n` is itself realized by a walk from a true source. -/
theorem infer_depth_achieved {g : PGraph} (hwf : g.Wf) (hac : Acyclic g) (fwd : Bool)
    {ord : Finset Nat → List Nat} (hord : ∀ s, (ord s).toFinset = s)
    {n : Nat} (hn : n ∈ g.nodes) :
    ∃ f, TrueSource g fwd f ∧ WalkF g fwd f n (infer_depth g fwd ord n) := by
  -- upper bound through the longest any-start walk, then extend it backward
  have hup : infer_depth g fwd ord n ≤ maxWalkTo g fwd n :=
    depthAfter_upper hwf hac hord g.nodes.length n
  rcases maxWalkTo_spec fwd hn with ⟨a, ha, hw⟩
  rcases walk_extends_to_source hwf hac g.nodes.length a n (maxWalkTo g fwd n)
      ha hw (by omega) with ⟨f, e, hf, hwe, hde⟩
  have hle : e ≤ infer_depth g fwd ord n := infer_depth_ge hwf hac hord hf hwe
  have : infer_depth g fwd ord n = e := by omega
  rw [this]
  exact ⟨f, hf, hwe⟩

/-!
## Cohort queries: `predecessors` / `successors`

`nx.single_source_shortest_path_length(G, node, cutoff=k)` performs a BFS
and returns a dict mapping each node at shortest-path distance `≤ k` to its
distance, in discovery order (the source first, then layer by layer).
`predecessors` runs it on the REVERSED graph.

The `include_founders` / `include_leaves` branch of the source executes
`len(self.graph.predecessors(nn))` resp. `len(self.graph.successors(nn))`;
both are Python ITERATORS, and `len()` of an iterator raises `TypeError`.
Python evaluates the conjunction left to right, so the branch raises as
soon as it is reached with the flag set.
-/

inductive PyErr where
  | nodeNotFound : PyErr
  | typeError : PyErr
deriving DecidableEq

/-- Deduplicate keeping first occurrences (BFS enqueue order). -/
def firstDedup (l : List Nat) : List Nat :=
  l.foldl (fun acc x => if x ∈ acc then acc else acc ++ [x]) []

/-- BFS layers with distances: `visited` is the set already enqueued,
`frontier` the current layer, `d` its distance, `budget` the remaining
number of layers to emit (`cutoff + 1`). -/
def ssplAux (g : PGraph) (fwd : Bool) :
    (visited frontier : List Nat) → (d budget : Nat) → List (Nat × Nat)
  | _, _, _, 0 => []
  | visited, frontier, d, b + 1 =>
    let next := firstDedup
      (((frontier.map (outN g fwd)).flatten).filter (fun c => !(visited.contains c)))
    frontier.map (fun x => (x, d)) ++ ssplAux g fwd (visited ++ next) next (d + 1) b

/-- `nx.single_source_shortest_path_length(G[, reversed], node, cutoff=k)`. -/
def single_source_shortest_path_length (g : PGraph) (fwd : Bool) (node k : Nat) :
    List (Nat × Nat) :=
  ssplAux g fwd [node] [node] 0 (k + 1)

/-- The `for nn, dist in ...: if dist == k ... elif include_flag and
len(iterator) == 0` loop shared by `predecessors` and `successors`.
When the flag is set and an entry with `dist ≠ k` comes up, the `len()`
call on the neighbor iterator raises `TypeError` before any comparison. -/
def filterByDist (k : Nat) (includeEnds : Bool) :
    List (Nat × Nat) → Except PyErr (List Nat)
  | [] => .ok []
  | (nn, dist) :: rest =>
    if dist = k then (filterByDist k includeEnds rest).map (fun l => nn :: l)
    else if includeEnds then .error .typeError
    else filterByDist k includeEnds rest

/-- `Genealogical.predecessors(node, k, include_intermediates,
include_founders)`. -/
def predecessors (g : PGraph) (node k : Nat)
    (includeIntermediates includeFounders : Bool) : Except PyErr (List Nat) :=
  if node ∈ g.nodes then
    let pd := single_source_shortest_path_length g false node k
    if includeIntermediates then .ok (pd.map Prod.fst)
    else filterByDist k includeFounders pd
  else .error .nodeNotFound

/-- `Genealogical.successors(node, k, include_intermediates,
include_leaves)`: the forward-direction mirror. -/
def successors (g : PGraph) (node k : Nat)
    (includeIntermediates includeLeaves : Bool) : Except PyErr (List Nat) :=
  if node ∈ g.nodes then
    let sd := single_source_shortest_path_length g true node k
    if includeIntermediates then .ok (sd.map Prod.fst)
    else filterByDist k includeLeaves sd
  else .error .nodeNotFound

/-- `self.successors(n)` with all arguments left at their defaults
(`k=1`, both flags false), as called by `get_num_paths_to_target` and
`get_probands_under`.  Every call site passes a graph node, so the
`NodeNotFound` branch (mapped to `[]` here) is never taken. -/
def successorsDefault (g : PGraph) (n : Nat) : List Nat :=
  match successors g n 1 false false with
  | .ok l => l
  | .error _ => []

/-!
## Path-counting DP: `get_num_paths_to_target`

`nodes = self.infer_depth()` is a `defaultdict`; its KEYS are the nodes
touched while consuming `trace_edges(forward=True)` — for each yielded
pair `(node, child)` the reads `depth[node]` and `depth[child]` insert
both ids, in that order.  `sorted(nodes, key=nodes.get, reverse=True)`
is a stable descending sort of those keys by depth.  A `Counter` is an
insertion-ordered multiset of `target ↦ count` entries; `Counter.__add__`
keeps the left operand's key order and appends new keys.
-/

/-- Key-insertion order of the `depth` defaultdict: for every traced pair
`(p, c)` the ids `p` then `c`, first occurrences only. -/
def depthKeys (g : PGraph) (ord : Finset Nat → List Nat) : List Nat :=
  firstDedup
    (((List.range g.nodes.length).map (fun t =>
      ((ord (traceGens g true (defaultSrc g true) t)).map (fun p =>
        ((outN g true p).map (fun c => [p, c])).flatten)).flatten)).flatten)

/-- Stable insertion into a list sorted by strictly decreasing key. -/
def insertDesc (d : Nat → Nat) (x : Nat) : List Nat → List Nat
  | [] => [x]
  | y :: ys => if d x < d y then y :: insertDesc d x ys else x :: y :: ys

/-- `sorted(l, key=d, reverse=True)`: stable descending sort. -/
def sortDesc (d : Nat → Nat) (l : List Nat) : List Nat :=
  l.foldr (insertDesc d) []

/-- `Counter` addition: add counts of existing keys, append new keys. -/
def counterAdd (acc c : List (Nat × Nat)) : List (Nat × Nat) :=
  c.foldl (fun acc kv =>
    if acc.any (fun p => p.1 == kv.1) then
      acc.map (fun p => if p.1 == kv.1 then (p.1, p.2 + kv.2) else p)
    else acc ++ [kv]) acc

/-- `Genealogical.get_num_paths_to_target(target, include_target)`.
`target = none` models the Python default `None` (replaced by
`self.probands()`, i.e. the truthiness-filtered source list).  The
`(pts.lookup suc).getD []` read models `pts[suc]`; a missing key would be
a Python `KeyError`, which the descending-depth processing order makes
unreachable for graph successors. -/
def get_num_paths_to_target (g : PGraph) (ord : Finset Nat → List Nat)
    (target : Option (List Nat)) (includeTarget : Bool) :
    List (Nat × List (Nat × Nat)) :=
  let tgt := match target with
    | none => pySources g false  -- self.probands()
    | some t => t
  let depth := infer_depth g true ord
  let order := sortDesc depth (depthKeys g ord)
  let pts := order.foldl (fun pts n =>
    let nSucc := successorsDefault g n
    if n ∈ tgt then pts ++ [(n, [(n, 1)])]
    else if nSucc.isEmpty then pts ++ [(n, [])]
    else pts ++ [(n, nSucc.foldl (fun acc suc =>
      counterAdd acc ((pts.lookup suc).getD [])) [])]) []
  let pts := pts.filter (fun kv => !kv.2.isEmpty)
  -- `if not include_target: for t in target: del pts[t]`
  if includeTarget then pts else pts.filter (fun kv => !(tgt.contains kv.1))

/-!
## Descendant cohorts: `get_probands_under`
-/

/-- The `while len(n_set) > 0` worklist loop: pop the front, push the
children at the back if any, otherwise record a leaf.  Each iteration pops
exactly once, and on the inputs used by the claims below the loop body is
never entered, so the fuel never matters; it is sized generously. -/
def gpuLoop (g : PGraph) : Nat → List Nat → Finset Nat → Finset Nat
  | 0, _, acc => acc
  | _ + 1, [], acc => acc
  | fuel + 1, nn :: rest, acc =>
    let cs := successorsDefault g nn
    if cs.isEmpty then gpuLoop g fuel rest (insert nn acc)
    else gpuLoop g fuel (rest ++ cs) acc

def gpuFuel (g : PGraph) : Nat :=
  (g.nodes.length + g.edges.length + 2) ^ (g.nodes.length + 2)

/-- `Genealogical.get_probands_under(nodes, climb_up_step)` for an explicit
node list. -/
def get_probands_under (g : PGraph) (ns : List Nat) (climb : Nat) :
    Except PyErr (List (Nat × Finset Nat)) :=
  match ns with
  | [] => .ok []
  | n :: rest =>
    match predecessors g n climb false true with
    | .error e => .error e
    | .ok baseSet =>
      let nset := ((baseSet.map (successorsDefault g)).flatten)
      let res : Finset Nat :=
        if nset.isEmpty then {n} else gpuLoop g (gpuFuel g) nset ∅
      match get_probands_under g rest climb with
      | .error e => .error e
      | .ok tail => .ok ((n, res) :: tail)

/-!
## Similarity estimator: `similarity`

`K = np.zeros((n, n))`; the float64 arithmetic used here (`0.5`, halving)
is exact division by two, modelled in `ℚ`.  The guard
`if any(self.graph.predecessors(j))` again tests Python truthiness of the
parent ids, and `next(self.graph.predecessors(j))` is the FIRST recorded
parent.
-/

def setK (K : Nat → Nat → ℚ) (i j : Nat) (v : ℚ) : Nat → Nat → ℚ :=
  fun a b => if a = i ∧ b = j then v else K a b

/-- Body of the inner `for j in range(i+1, n)` loop. -/
def simStep (g : PGraph) (i : Nat) (K : Nat → Nat → ℚ) (j : Nat) :
    Nat → Nat → ℚ :=
  let ps := outN g false j  -- self.graph.predecessors(j)
  if ps.any truthy then
    match ps with
    | p :: _ =>
      let v := K i p / 2
      setK (setK K i j v) j i v
    | [] => K  -- unreachable: `any` returned true
  else K

/-- Body of the outer `for i in range(n)` loop. -/
def simRow (g : PGraph) (K : Nat → Nat → ℚ) (i : Nat) : Nat → Nat → ℚ :=
  (List.range' (i + 1) (g.nodes.length - (i + 1))).foldl (simStep g i)
    (setK K i i (1 / 2))

/-- `Genealogical.similarity()`. -/
def similarity (g : PGraph) : Nat → Nat → ℚ :=
  (List.range g.nodes.length).foldl (simRow g) (fun _ _ => 0)

/-!
## Attribute accessor: `attributes`

`list(list(self.graph.nodes(data=True))[0][1].keys())`: the key list of
the FIRST listed node's attribute dict; on an empty graph the `[0]` index
raises `IndexError`, modelled as `none`.
-/

def attributes (g : PGraph) : Option (List String) :=
  match g.nodes with
  | [] => none
  | n :: _ => some (g.attrs n)

instance {ε α : Type} [DecidableEq ε] [DecidableEq α] : DecidableEq (Except ε α) :=
  fun a b =>
    match a, b with
    | .error e1, .error e2 =>
      if h : e1 = e2 then .isTrue (by rw [h])
      else .isFalse (by intro hh; cases hh; exact h rfl)
    | .ok v1, .ok v2 =>
      if h : v1 = v2 then .isTrue (by rw [h])
      else .isFalse (by intro hh; cases hh; exact h rfl)
    | .error _, .ok _ => .isFalse (by intro hh; cases hh)
    | .ok _, .error _ => .isFalse (by intro hh; cases hh)

/-!
## Concrete pedigrees used by the claims
-/

/-- A canonical enumeration oracle for Python set iteration (insertion
sort, chosen because it reduces inside the kernel). -/
def sortOrd (s : Finset Nat) : List Nat :=
  Quotient.lift (fun l => List.insertionSort (· ≤ ·) l)
    (fun l1 l2 h => by
      have hp : l1.Perm l2 := h
      exact List.eq_of_perm_of_sorted
        ((List.perm_insertionSort _ l1).trans
          (hp.trans (List.perm_insertionSort _ l2).symm))
        (List.sorted_insertionSort _ l1) (List.sorted_insertionSort _ l2)) s.val

theorem mem_sortOrd {s : Finset Nat} {a : Nat} : a ∈ sortOrd s ↔ a ∈ s := by
  rcases s with ⟨val, hnodup⟩
  induction val using Quotient.inductionOn with
  | h l =>
    show a ∈ List.insertionSort (· ≤ ·) l ↔ _
    rw [(List.perm_insertionSort (· ≤ ·) l).mem_iff]
    simp [Finset.mem_mk]

theorem sortOrd_valid : ∀ s : Finset Nat, (sortOrd s).toFinset = s := by
  intro s
  ext a
  simp [List.mem_toFinset, mem_sortOrd]

/-- Chain `F → A → B` with `F = 1`, `A = 2`, `B = 3`. -/
def chain3 : PGraph := PGraph.mk [1, 2, 3] [(1, 2), (2, 3)] (fun _ => [])

/-- Diamond: founder `F = 1`, children `A = 2` and `B = 3`, joint child
`C = 4`. -/
def diamond : PGraph :=
  PGraph.mk [1, 2, 3, 4] [(1, 2), (1, 3), (2, 4), (3, 4)] (fun _ => [])

/-- Node `0` with parent `1`: the id `0` is falsy in Python. -/
def gZero : PGraph := PGraph.mk [0, 1] [(1, 0)] (fun _ => [])

/-- Founder `0` with child `1`. -/
def gSim : PGraph := PGraph.mk [0, 1] [(0, 1)] (fun _ => [])

/-- Ordered pedigree for the amended similarity claim: isolated node `0`
and edge `1 → 2`. -/
def gSim3 : PGraph := PGraph.mk [0, 1, 2] [(1, 2)] (fun _ => [])

/-- A two-node directed cycle. -/
def gCyc : PGraph := PGraph.mk [1, 2] [(1, 2), (2, 1)] (fun _ => [])

/-- A single isolated node. -/
def gIso : PGraph := PGraph.mk [5] [] (fun _ => [])

/-- Empty graph. -/
def gEmpty : PGraph := PGraph.mk [] [] (fun _ => [])

/-- Graph with one node carrying an attribute key. -/
def gAttr : PGraph := PGraph.mk [7, 8] [] (fun n => if n = 7 then ["time"] else ["other"])

/-!
## Claims
-/

/-- C2.  The claim states that `predecessors(n, k, include_founders=True)`
returns the nodes at distance exactly `k` together with every founder at
distance `< k` (and `successors(..., include_leaves=True)` mirrors it).
In the source the branch runs `len(self.graph.predecessors(nn))` on a
dict-key ITERATOR, which raises `TypeError` as soon as any entry with
`dist != k` is scanned — and the source node itself is always scanned at
distance 0.  On the chain `1 → 2 → 3`, `predecessors(3, k=2,
include_founders=True)` should return `{1}` but raises instead. -/
theorem predecessors_include_founders_typeerror :
    predecessors chain3 3 2 false true = .error .typeError ∧
    successors chain3 1 2 false true = .error .typeError := by
  constructor <;> rfl

/-- C3 counterexample.  On the chain `1 → 2 → 3`,
`predecessors(3, k=2, include_intermediates=True)` is claimed to be exactly
`{F, A} = {1, 2}`; the code returns every key of the BFS distance dict,
which includes the query node `3` itself at distance 0. -/
theorem predecessors_intermediates_cex :
    (predecessors chain3 3 2 true false).map (fun l => l.toFinset) ≠
      .ok ({1, 2} : Finset Nat) := by
  decide

/-- C3 amended.  `predecessors(B, k=2)` returns exactly `{F}`, and
`predecessors(B, k=2, include_intermediates=True)` returns every node at
distance at most `k` INCLUDING `B` itself: `{F, A, B} = {1, 2, 3}`. -/
theorem predecessors_chain_amended :
    (predecessors chain3 3 2 false false).map (fun l => l.toFinset) =
      .ok ({1} : Finset Nat) ∧
    (predecessors chain3 3 2 true false).map (fun l => l.toFinset) =
      .ok ({1, 2, 3} : Finset Nat) := by
  constructor <;> decide

/-- C4.  The claim: with default targets (the probands), every node's
mapping counts its distinct paths to each proband.  `probands()` filters
with `lambda n: not any(G.successors(n))`, which tests Python truthiness
of the child ids, so node `1` of `gZero` (whose only child is the falsy id
`0`) is wrongly classed a proband and becomes a DP base case:
`pts[1] = {1: 1}` has no entry for the real proband `0` even though the
path `1 → 0` exists. -/
theorem get_num_paths_default_target_bug :
    get_num_paths_to_target gZero sortOrd none true =
      [(0, [(0, 1)]), (1, [(1, 1)])] ∧
    outN gZero true 1 = [0] ∧ WalkF gZero true 1 0 1 := by
  refine ⟨by decide, by decide, by decide⟩

/-- C5 counterexample.  `get_num_paths_to_target(target=[C])` with
`include_target` left at its default (`True`) also keeps the target row
`C ↦ {C: 1}`, so the key set is `{F, A, B, C}`, not `{F, A, B}` as
claimed. -/
theorem get_num_paths_diamond_cex :
    ((get_num_paths_to_target diamond sortOrd (some [4]) true).map
      Prod.fst).toFinset ≠ ({1, 2, 3} : Finset Nat) := by
  decide

/-- C5 amended.  On the diamond (`F,A,B,C = 1,2,3,4`),
`infer_depth(forward=True)` gives `F:0, A:1, B:1, C:2`, and
`get_num_paths_to_target(target=[C])` gives `F:2, A:1, B:1` AND the target
row `C:1`; only with `include_target=False` is the key set exactly
`{F, A, B}`. -/
theorem get_num_paths_diamond_amended :
    (infer_depth diamond true sortOrd 1 = 0 ∧ infer_depth diamond true sortOrd 2 = 1 ∧
     infer_depth diamond true sortOrd 3 = 1 ∧ infer_depth diamond true sortOrd 4 = 2) ∧
    ((get_num_paths_to_target diamond sortOrd (some [4]) true).lookup 1 =
        some [(4, 2)] ∧
     (get_num_paths_to_target diamond sortOrd (some [4]) true).lookup 2 =
        some [(4, 1)] ∧
     (get_num_paths_to_target diamond sortOrd (some [4]) true).lookup 3 =
        some [(4, 1)] ∧
     (get_num_paths_to_target diamond sortOrd (some [4]) true).lookup 4 =
        some [(4, 1)]) ∧
    ((get_num_paths_to_target diamond sortOrd (some [4]) true).map
        Prod.fst).toFinset = ({1, 2, 3, 4} : Finset Nat) ∧
    ((get_num_paths_to_target diamond sortOrd (some [4]) false).map
        Prod.fst).toFinset = ({1, 2, 3} : Finset Nat) := by
  refine ⟨by decide, by decide, by decide, by decide⟩

/-- C9 counterexample.  On `gSim` (nodes `0, 1`, edge `0 → 1`), node `1`
has the single recorded predecessor `0`, so the claim demands
`K[0,1] = K[0,0] / 2 = 1/4`; but `if any(self.graph.predecessors(j))`
tests truthiness of the parent ids and `any([0])` is `False`, so the
entry is never written and stays `0`. -/
theorem similarity_first_parent_cex :
    outN gSim false 1 = [0] ∧
    ¬ similarity gSim 0 1 = similarity gSim 0 0 / 2 := by
  refine ⟨by decide, by
    norm_num [similarity, simRow, simStep, setK, gSim, outN, truthy,
      List.range_succ, List.range']⟩

/-- C10.  The `attributes` accessor indexes the node-data list at `[0]`:
with at least one node it returns exactly the attribute keys of the FIRST
listed node (keys of other nodes are ignored); on an empty graph the
indexing raises `IndexError`, so non-emptiness is its precondition. -/
theorem attributes_first_node_spec :
    (∀ (g : PGraph) (n : Nat) (rest : List Nat), g.nodes = n :: rest →
      attributes g = some (g.attrs n)) ∧
    (∀ g : PGraph, g.nodes = [] → attributes g = none) := by
  constructor
  · intro g n rest h
    simp [attributes, h]
  · intro g h
    simp [attributes, h]

/-- C10 witness: on `gAttr` (first node `7`) the accessor returns node
`7`'s keys and ignores node `8`'s; on the empty graph it fails. -/
theorem attributes_first_node_spec_witness :
    (gAttr.nodes = 7 :: [8] ∧ gEmpty.nodes = []) ∧
    attributes gAttr = some ["time"] ∧ attributes gEmpty = none :=
  ⟨⟨rfl, rfl⟩, attributes_first_node_spec.1 gAttr 7 [8] rfl,
    attributes_first_node_spec.2 gEmpty rfl⟩

/-- C1.  `infer_depth(forward)` — for every enumeration oracle for the
Python set iteration — assigns every true source (founder when forward,
proband when backward) depth 0, and assigns every node reachable from a
true source the length of the longest directed walk (equivalently, path:
the graph is acyclic) from any true source to it, in the `fwd` direction
(reversed edges when `forward=False`). -/
theorem infer_depth_longest_path (g : PGraph) (ord : Finset Nat → List Nat)
    (hwf : g.Wf) (hac : Acyclic g) (hord : ∀ s, (ord s).toFinset = s) (fwd : Bool) :
    (∀ f, TrueSource g fwd f → infer_depth g fwd ord f = 0) ∧
    (∀ n, (∃ f d, TrueSource g fwd f ∧ WalkF g fwd f n d) →
      (∃ f, TrueSource g fwd f ∧ WalkF g fwd f n (infer_depth g fwd ord n)) ∧
      (∀ f d, TrueSource g fwd f → WalkF g fwd f n d →
        d ≤ infer_depth g fwd ord n)) := by
  constructor
  · intro f hf
    exact depthAfter_trueSource hf.2 g.nodes.length
  · intro n hreach
    rcases hreach with ⟨f, d, hf, hw⟩
    have hn : n ∈ g.nodes := walkF_end_mem hwf hw hf.1
    exact ⟨infer_depth_achieved hwf hac fwd hord hn,
      fun f' d' hf' hw' => infer_depth_ge hwf hac hord hf' hw'⟩

/-- C1 witness: the chain `1 → 2 → 3` forward; node `3` is reachable from
founder `1`. -/
theorem infer_depth_longest_path_witness :
    (chain3.Wf ∧ Acyclic chain3 ∧ (∀ s, (sortOrd s).toFinset = s) ∧
      TrueSource chain3 true 1 ∧ WalkF chain3 true 1 3 2) ∧
    ((∃ f, TrueSource chain3 true f ∧
        WalkF chain3 true f 3 (infer_depth chain3 true sortOrd 3)) ∧
      (∀ f d, TrueSource chain3 true f → WalkF chain3 true f 3 d →
        d ≤ infer_depth chain3 true sortOrd 3)) :=
  ⟨⟨by decide, acyclic_of_rank chain3 (fun n => n) (by decide), sortOrd_valid,
      by decide, by decide⟩,
    (infer_depth_longest_path chain3 sortOrd (by decide)
      (acyclic_of_rank chain3 (fun n => n) (by decide)) sortOrd_valid true).2 3
      ⟨1, 2, by decide, by decide⟩⟩

/-- C6.  For every well-formed acyclic graph and every enumeration oracle,
the forward depth map satisfies `depth[child] ≥ depth[parent] + 1` on
every edge, and every node with at least one parent attains equality at
some parent. -/
theorem infer_depth_edge_invariant (g : PGraph) (ord : Finset Nat → List Nat)
    (hwf : g.Wf) (hac : Acyclic g) (hord : ∀ s, (ord s).toFinset = s) :
    (∀ e ∈ g.edges,
      infer_depth g true ord e.1 + 1 ≤ infer_depth g true ord e.2) ∧
    (∀ c ∈ g.nodes, inN g true c ≠ [] →
      ∃ p ∈ inN g true c,
        infer_depth g true ord c = infer_depth g true ord p + 1) := by
  have hstep : ∀ p c : Nat, c ∈ outN g true p → p ∈ g.nodes →
      infer_depth g true ord p + 1 ≤ infer_depth g true ord c := by
    intro p c hc hp
    rcases infer_depth_achieved hwf hac true hord hp with ⟨f, hf, hw⟩
    exact infer_depth_ge hwf hac hord hf (walkF_snoc hw hc)
  constructor
  · intro e he
    have hc : e.2 ∈ outN g true e.1 := by
      rw [mem_outN]
      simpa using he
    exact hstep e.1 e.2 hc (hwf.1 e he).1
  · intro c hcmem hne
    -- depth c is realized by a source walk; split off its last step
    rcases infer_depth_achieved hwf hac true hord hcmem with ⟨f, hf, hw⟩
    -- depth c is positive: extend a walk to any parent of c
    have hpos : 1 ≤ infer_depth g true ord c := by
      cases hq : inN g true c with
      | nil => exact absurd hq hne
      | cons q qs =>
        have hqin : q ∈ inN g true c := by rw [hq]; exact List.mem_cons_self q qs
        have hcq : c ∈ outN g true q := mem_outN_iff_mem_inN.2 hqin
        have hqn : q ∈ g.nodes := by
          have h := mem_outN.1 hcq
          exact (hwf.1 _ (by simpa using h)).1
        rcases infer_depth_achieved hwf hac true hord hqn with ⟨f', hf', hw'⟩
        have := infer_depth_ge hwf hac hord hf' (walkF_snoc hw' hcq)
        omega
    obtain ⟨m, hm⟩ : ∃ m, infer_depth g true ord c = m + 1 :=
      ⟨infer_depth g true ord c - 1, by omega⟩
    rw [hm] at hw
    rcases walkF_snoc_split hw with ⟨p, hwp, hpc⟩
    have hpmem : p ∈ inN g true c := mem_outN_iff_mem_inN.1 hpc
    have hpn : p ∈ g.nodes := walkF_end_mem hwf hwp hf.1
    refine ⟨p, hpmem, ?_⟩
    have hge : m ≤ infer_depth g true ord p :=
      infer_depth_ge hwf hac hord hf hwp
    have hle : infer_depth g true ord p + 1 ≤ infer_depth g true ord c :=
      hstep p c hpc hpn
    omega

/-- C6 witness: the diamond pedigree. -/
theorem infer_depth_edge_invariant_witness :
    (diamond.Wf ∧ Acyclic diamond ∧ (∀ s, (sortOrd s).toFinset = s)) ∧
    ((∀ e ∈ diamond.edges,
        infer_depth diamond true sortOrd e.1 + 1 ≤ infer_depth diamond true sortOrd e.2) ∧
      (∀ c ∈ diamond.nodes, inN diamond true c ≠ [] →
        ∃ p ∈ inN diamond true c,
          infer_depth diamond true sortOrd c = infer_depth diamond true sortOrd p + 1)) :=
  ⟨⟨by decide, acyclic_of_rank diamond (fun n => n) (by decide), sortOrd_valid⟩,
    infer_depth_edge_invariant diamond sortOrd (by decide)
      (acyclic_of_rank diamond (fun n => n) (by decide)) sortOrd_valid⟩

/-- C7 counterexample.  The claim asserts that on a cyclic graph the
traversal does not terminate.  On the 2-cycle `1 → 2 → 1` the default
forward source (`founders_view()`) is EMPTY — every node has a parent —
so `curr_gen` is empty at once and the while-loop of `trace_edges`
terminates immediately. -/
theorem trace_edges_cyclic_cex :
    Relation.TransGen (EdgeStep gCyc) 1 1 ∧
    traceGens gCyc true (defaultSrc gCyc true) 0 = ∅ :=
  ⟨Relation.TransGen.head (show EdgeStep gCyc 1 2 by unfold EdgeStep; decide)
      (Relation.TransGen.single (show EdgeStep gCyc 2 1 by unfold EdgeStep; decide)),
    by decide⟩

/-- C7 amended.  For every finite well-formed acyclic graph, any source
set of nodes and either direction, the layered traversal dies out (the
generation is empty from index `|nodes|` on, so the sequence of yielded
pairs is finite); and for every well-formed graph, cyclic or not, the
while-loop fails to terminate (no generation is ever empty) EXACTLY WHEN
some node carrying a positive-length closed walk is reachable in the
traversal.  In particular a cyclic graph whose cycles the source never
reaches still terminates, which is what the counterexample exhibits. -/
theorem trace_edges_termination :
    (∀ (g : PGraph) (fwd : Bool) (src : Finset Nat), g.Wf → Acyclic g →
      (∀ s ∈ src, s ∈ g.nodes) →
      ∀ t, g.nodes.length ≤ t → traceGens g fwd src t = ∅) ∧
    (∀ (g : PGraph) (fwd : Bool) (src : Finset Nat), g.Wf →
      (∀ s ∈ src, s ∈ g.nodes) →
      ((∀ t, traceGens g fwd src t ≠ ∅) ↔
        ∃ c t0 L, c ∈ traceGens g fwd src t0 ∧ WalkF g fwd c c (L + 1))) := by
  constructor
  · intro g fwd src hwf hac hsrc t ht
    exact traceGens_terminates hwf hac hsrc t ht
  · intro g fwd src hwf hsrc
    constructor
    · intro hall
      by_contra hnc
      exact hall g.nodes.length
        (traceGens_no_cycle_terminates hwf hsrc hnc g.nodes.length (le_refl _))
    · rintro ⟨c, t0, L, hc, hcyc⟩
      exact traceGens_nonempty_of_reachable_cycle hc hcyc

/-- C7 witness: termination half at the chain (its generations die out by
index 3); the nontermination equivalence at the 2-cycle seeded with `{1}`,
instantiated in the cycle-to-nontermination direction. -/
theorem trace_edges_termination_witness :
    (chain3.Wf ∧ Acyclic chain3 ∧
      (∀ s ∈ defaultSrc chain3 true, s ∈ chain3.nodes) ∧
      gCyc.Wf ∧ (∀ s ∈ ({1} : Finset Nat), s ∈ gCyc.nodes) ∧
      (1 : Nat) ∈ traceGens gCyc true {1} 0 ∧ WalkF gCyc true 1 1 2) ∧
    traceGens chain3 true (defaultSrc chain3 true) 3 = ∅ ∧
    (∀ t, traceGens gCyc true {1} t ≠ ∅) :=
  ⟨⟨by decide, acyclic_of_rank chain3 (fun n => n) (by decide), by decide,
      by decide, by decide, by decide, by decide⟩,
    trace_edges_termination.1 chain3 true (defaultSrc chain3 true) (by decide)
      (acyclic_of_rank chain3 (fun n => n) (by decide)) (by decide) 3 (by decide),
    (trace_edges_termination.2 gCyc true {1} (by decide) (by decide)).2
      ⟨1, 0, 1, by decide, by decide⟩⟩

/-- C8.  For every graph node with no parents and no children,
`get_probands_under(n)` (default `climb_up_step=0`) returns `{n: {n}}`:
the ancestor cohort at 0 steps is `[n]` itself (the `include_founders`
branch is never consulted at cutoff 0), the expansion worklist built from
`n`'s children is empty, so `n` is recorded as its own sole proband. -/
theorem get_probands_under_isolated (g : PGraph) (n : Nat)
    (hn : n ∈ g.nodes) (hpar : outN g false n = []) (hch : outN g true n = []) :
    get_probands_under g [n] 0 = .ok [(n, ({n} : Finset Nat))] := by
  have hpred : predecessors g n 0 false true = .ok [n] := by
    simp [predecessors, hn, single_source_shortest_path_length, ssplAux,
      filterByDist, Except.map]
  have hsucc : successorsDefault g n = [] := by
    simp [successorsDefault, successors, hn, single_source_shortest_path_length,
      ssplAux, hch, firstDedup, filterByDist]
  simp [get_probands_under, hpred, hsucc]

/-- C8 witness: the isolated node `5`. -/
theorem get_probands_under_isolated_witness :
    ((5 : Nat) ∈ gIso.nodes ∧ outN gIso false 5 = [] ∧ outN gIso true 5 = []) ∧
    get_probands_under gIso [5] 0 = .ok [(5, ({5} : Finset Nat))] :=
  ⟨⟨by decide, by decide, by decide⟩,
    get_probands_under_isolated gIso 5 (by decide) (by decide) (by decide)⟩

/-!
### Similarity invariants (C9 amended)
-/

theorem setK_eval (K : Nat → Nat → ℚ) (i j : Nat) (v : ℚ) (a b : Nat) :
    setK K i j v a b = if a = i ∧ b = j then v else K a b := rfl

theorem simStep_preserve {g : PGraph} {i : Nat} {K : Nat → Nat → ℚ} {j a b : Nat}
    (h1 : ¬(a = i ∧ b = j)) (h2 : ¬(a = j ∧ b = i)) :
    simStep g i K j a b = K a b := by
  unfold simStep
  split
  · cases houtn : outN g false j with
    | nil => rfl
    | cons p ps => simp [setK_eval, h1, h2]
  · rfl

theorem colsFold_preserve (g : PGraph) (i : Nat) (L : List Nat) :
    ∀ (K : Nat → Nat → ℚ) (a b : Nat),
      (∀ j ∈ L, ¬(a = i ∧ b = j) ∧ ¬(a = j ∧ b = i)) →
      (L.foldl (simStep g i) K) a b = K a b := by
  induction L with
  | nil => intro K a b _; rfl
  | cons j js ih =>
    intro K a b h
    simp only [List.foldl_cons]
    rw [ih _ a b (fun j' hj' => h j' (List.mem_cons_of_mem j hj'))]
    exact simStep_preserve (h j (List.mem_cons_self j js)).1
      (h j (List.mem_cons_self j js)).2

theorem simRow_preserve {g : PGraph} {K : Nat → Nat → ℚ} {i a b : Nat}
    (h1 : ¬(a = i ∧ i ≤ b)) (h2 : ¬(b = i ∧ i < a)) :
    simRow g K i a b = K a b := by
  unfold simRow
  rw [colsFold_preserve g i _ _ a b ?cond]
  case cond =>
    intro j hj
    have hij : i + 1 ≤ j := (List.mem_range'_1.1 hj).1
    constructor
    · rintro ⟨rfl, rfl⟩
      exact h1 ⟨rfl, by omega⟩
    · rintro ⟨rfl, rfl⟩
      exact h2 ⟨rfl, by omega⟩
  rw [setK_eval]
  split
  · have h3 := ‹a = i ∧ b = i›
    exact absurd ⟨h3.1, by omega⟩ h1
  · rfl

theorem rowsFold_preserve (g : PGraph) (L : List Nat) :
    ∀ (K : Nat → Nat → ℚ) (a b : Nat),
      (∀ r ∈ L, ¬(a = r ∧ r ≤ b) ∧ ¬(b = r ∧ r < a)) →
      (L.foldl (simRow g) K) a b = K a b := by
  induction L with
  | nil => intro K a b _; rfl
  | cons r rs ih =>
    intro K a b h
    simp only [List.foldl_cons]
    rw [ih _ a b (fun r' hr' => h r' (List.mem_cons_of_mem r hr'))]
    exact simRow_preserve (h r (List.mem_cons_self r rs)).1
      (h r (List.mem_cons_self r rs)).2

theorem simStep_value {g : PGraph} {i j p : Nat} {ps : List Nat}
    (K : Nat → Nat → ℚ) (houtn : outN g false j = p :: ps)
    (htr : truthy p = true) (hij : i ≠ j) :
    simStep g i K j i j = K i p / 2 ∧ simStep g i K j j i = K i p / 2 := by
  unfold simStep
  rw [houtn]
  have hguard : (p :: ps).any truthy = true := by simp [htr]
  rw [if_pos hguard]
  constructor
  · simp [setK_eval, hij, Ne.symm hij]
  · simp [setK_eval, hij, Ne.symm hij]

theorem range'_split (s m j : Nat) (hj : s ≤ j) (hjm : j < s + m) :
    List.range' s m = List.range' s (j - s) ++ j :: List.range' (j + 1) (s + m - (j + 1)) := by
  have e1 : (m - (j - s)) + (j - s) = m := by omega
  have e2 : s + (j - s) = j := by omega
  have e3 : m - (j - s) = (s + m - (j + 1)) + 1 := by omega
  calc List.range' s m = List.range' s ((m - (j - s)) + (j - s)) := by rw [e1]
    _ = List.range' s (j - s) ++ List.range' (s + (j - s)) (m - (j - s)) :=
        (List.range'_append_1 s (j - s) (m - (j - s))).symm
    _ = List.range' s (j - s) ++ j :: List.range' (j + 1) (s + m - (j + 1)) := by
        rw [e2, e3, List.range'_succ]

theorem setKpair_symm {K : Nat → Nat → ℚ} (hK : ∀ a b, K a b = K b a)
    (i j : Nat) (v : ℚ) :
    ∀ a b, setK (setK K i j v) j i v a b = setK (setK K i j v) j i v b a := by
  intro a b
  have hab := hK a b
  simp only [setK_eval]
  by_cases h1 : a = j <;> by_cases h2 : b = i <;> by_cases h3 : a = i <;>
    by_cases h4 : b = j <;> simp_all

theorem simStep_symm {g : PGraph} {i j : Nat} {K : Nat → Nat → ℚ}
    (hK : ∀ a b, K a b = K b a) :
    ∀ a b, simStep g i K j a b = simStep g i K j b a := by
  intro a b
  unfold simStep
  split
  · cases houtn : outN g false j with
    | nil => exact hK a b
    | cons p ps => exact setKpair_symm hK i j _ a b
  · exact hK a b

theorem colsFold_symm {g : PGraph} {i : Nat} (L : List Nat) :
    ∀ (K : Nat → Nat → ℚ), (∀ a b, K a b = K b a) →
      ∀ a b, (L.foldl (simStep g i) K) a b = (L.foldl (simStep g i) K) b a := by
  induction L with
  | nil => intro K hK; exact hK
  | cons j js ih =>
    intro K hK
    simp only [List.foldl_cons]
    exact ih _ (simStep_symm hK)

theorem simRow_symm {g : PGraph} {K : Nat → Nat → ℚ} {i : Nat}
    (hK : ∀ a b, K a b = K b a) :
    ∀ a b, simRow g K i a b = simRow g K i b a := by
  unfold simRow
  refine colsFold_symm _ _ ?_
  intro a b
  simp only [setK_eval]
  by_cases h1 : a = i <;> by_cases h2 : b = i <;> simp_all

theorem similarity_symm_aux {g : PGraph} (L : List Nat) :
    ∀ (K : Nat → Nat → ℚ), (∀ a b, K a b = K b a) →
      ∀ a b, (L.foldl (simRow g) K) a b = (L.foldl (simRow g) K) b a := by
  induction L with
  | nil => intro K hK; exact hK
  | cons r rs ih =>
    intro K hK
    simp only [List.foldl_cons]
    exact ih _ (simRow_symm hK)

theorem simRow_recurrence (g : PGraph) (K : Nat → Nat → ℚ) {i j p : Nat}
    {ps : List Nat} (hij : i < j) (hjn : j < g.nodes.length)
    (houtn : outN g false j = p :: ps) (htr : truthy p = true) (hpj : p < j) :
    simRow g K i i j = simRow g K i i p / 2 := by
  unfold simRow
  rw [range'_split (i + 1) (g.nodes.length - (i + 1)) j (by omega) (by omega)]
  rw [List.foldl_append]
  simp only [List.foldl_cons]
  have hBj := colsFold_preserve
    g i (List.range' (j + 1) (i + 1 + (g.nodes.length - (i + 1)) - (j + 1)))
    (simStep g i ((List.range' (i + 1) (j - (i + 1))).foldl (simStep g i)
      (setK K i i (1 / 2))) j) i j ?condj
  case condj =>
    intro j' hj'
    have hb := List.mem_range'_1.1 hj'
    constructor
    · rintro ⟨-, rfl⟩; omega
    · rintro ⟨rfl, -⟩; omega
  have hBp := colsFold_preserve
    g i (List.range' (j + 1) (i + 1 + (g.nodes.length - (i + 1)) - (j + 1)))
    (simStep g i ((List.range' (i + 1) (j - (i + 1))).foldl (simStep g i)
      (setK K i i (1 / 2))) j) i p ?condp
  case condp =>
    intro j' hj'
    have hb := List.mem_range'_1.1 hj'
    constructor
    · rintro ⟨-, rfl⟩; omega
    · rintro ⟨rfl, -⟩; omega
  rw [hBj, hBp]
  rw [(simStep_value _ houtn htr (by omega)).1]
  rw [simStep_preserve (by rintro ⟨-, rfl⟩; omega) (by rintro ⟨rfl, -⟩; omega)]

/-- C9 amended.  Restricted to pedigrees whose node set is exactly
`0..n-1` and whose every edge `(p, c)` satisfies `1 ≤ p < c` (ids ordered
parent-before-child with node `0` parentless — the implicit precondition
§9 of the spec records; the counterexample shows the claim fails without
it because `any(...)` treats the parent id `0` as falsy), `similarity()`
has diagonal `0.5`, is symmetric, and for `i < j` where `j` has a first
recorded predecessor `p`, satisfies `K[i,j] = K[i,p] / 2`. -/
theorem similarity_spec_amended (g : PGraph)
    (hn : ∀ m, m ∈ g.nodes ↔ m < g.nodes.length)
    (hedge : ∀ e ∈ g.edges, 1 ≤ e.1 ∧ e.1 < e.2) :
    (∀ i, i < g.nodes.length → similarity g i i = 1 / 2) ∧
    (∀ a b, similarity g a b = similarity g b a) ∧
    (∀ i j p ps, i < j → j < g.nodes.length → outN g false j = p :: ps →
      similarity g i j = similarity g i p / 2) := by
  refine ⟨?diag, ?symm, ?rec⟩
  case symm =>
    exact similarity_symm_aux (List.range g.nodes.length) _ (fun a b => rfl)
  case diag =>
    intro i hi
    unfold similarity
    rw [List.range_eq_range', range'_split 0 g.nodes.length i (by omega) (by omega)]
    rw [List.foldl_append]
    simp only [List.foldl_cons]
    rw [rowsFold_preserve g _ _ i i ?hrows]
    case hrows =>
      intro r hr
      have := List.mem_range'_1.1 hr
      constructor
      · rintro ⟨rfl, -⟩; omega
      · rintro ⟨rfl, -⟩; omega
    unfold simRow
    rw [colsFold_preserve g i _ _ i i ?hcols]
    case hcols =>
      intro j' hj'
      have := List.mem_range'_1.1 hj'
      constructor
      · rintro ⟨-, rfl⟩; omega
      · rintro ⟨rfl, -⟩; omega
    simp [setK_eval]
  case rec =>
    intro i j p ps hij hjn houtn
    have hpmem : p ∈ outN g false j := by
      rw [houtn]; exact List.mem_cons_self p ps
    have hpj : (p, j) ∈ g.edges := by simpa using mem_outN.1 hpmem
    have hp1 : 1 ≤ p := (hedge _ hpj).1
    have hpltj : p < j := (hedge _ hpj).2
    have htr : truthy p = true := by
      simp only [truthy, bne_iff_ne, ne_eq, decide_not]
      omega
    unfold similarity
    rw [List.range_eq_range', range'_split 0 g.nodes.length i (by omega) (by omega)]
    rw [List.foldl_append]
    simp only [List.foldl_cons]
    have hpres : ∀ b : Nat,
        ((List.range' (i + 1) (0 + g.nodes.length - (i + 1))).foldl (simRow g)
          (simRow g ((List.range' 0 (i - 0)).foldl (simRow g) (fun _ _ => 0)) i)) i b =
        simRow g ((List.range' 0 (i - 0)).foldl (simRow g) (fun _ _ => 0)) i i b := by
      intro b
      refine rowsFold_preserve g _ _ i b ?_
      intro r hr
      have := List.mem_range'_1.1 hr
      constructor
      · rintro ⟨rfl, -⟩; omega
      · rintro ⟨rfl, hlt⟩; omega
    rw [hpres j, hpres p]
    exact simRow_recurrence g _ hij hjn houtn htr hpltj

/-- C9 amended witness: nodes `0, 1, 2` with the single edge `1 → 2`. -/
theorem similarity_spec_amended_witness :
    ((∀ m, m ∈ gSim3.nodes ↔ m < gSim3.nodes.length) ∧
      (∀ e ∈ gSim3.edges, 1 ≤ e.1 ∧ e.1 < e.2)) ∧
    similarity gSim3 1 1 = 1 / 2 ∧
    similarity gSim3 1 2 = similarity gSim3 2 1 ∧
    similarity gSim3 1 2 = similarity gSim3 1 1 / 2 := by
  have hn : ∀ m, m ∈ gSim3.nodes ↔ m < gSim3.nodes.length := by
    intro m
    show m ∈ [0, 1, 2] ↔ m < 3
    simp
    omega
  have he : ∀ e ∈ gSim3.edges, 1 ≤ e.1 ∧ e.1 < e.2 := by decide
  exact ⟨⟨hn, he⟩,
    (similarity_spec_amended gSim3 hn he).1 1 (by decide),
    (similarity_spec_amended gSim3 hn he).2.1 1 2,
    (similarity_spec_amended gSim3 hn he).2.2 1 2 1 [] (by decide) (by decide)
      (by decide)⟩
